import Mathlib

/-!
Shallow embedding of the kilo-style terminal text editor in this repository:
the key decoder, the row data model with tab-aware coordinate conversion,
the incremental syntax highlighter, the search callback and the quit
confirmation logic, together with proofs about the specified claims.

Bytes are modelled as `Nat` (0..255); C strings become `List Nat` without the
terminating NUL; reading the NUL terminator one byte past the end of a buffer
is modelled by `List.getD _ _ 0`.
-/

/-- KILO_TAB_STOP from the source (fixed tab stop width). -/
def KILO_TAB_STOP : Nat := 8

/-- KILO_QUIT_TIMES from the source (quit confirmation count). -/
def KILO_QUIT_TIMES : Nat := 2

/-- CTRL_KEY(k) = k & 0x1f. -/
def CTRL_KEY (k : Nat) : Nat := k &&& 0x1f

/-- HL_HIGHLIGHT_NUMBERS flag bit. -/
def HL_HIGHLIGHT_NUMBERS : Nat := 1

/-- HL_HIGHLIGHT_STRINGS flag bit. -/
def HL_HIGHLIGHT_STRINGS : Nat := 2

/-- The editorHighlight enum: one classification tag per rendered character. -/
inductive editorHighlight where
  | HL_NORMAL
  | HL_COMMENT
  | HL_MLCOMMENT
  | HL_KEYWORD1
  | HL_KEYWORD2
  | HL_STRING
  | HL_NUMBER
  | HL_MATCH
deriving DecidableEq, BEq, Repr, Inhabited

open editorHighlight

/-- The byte sequence of a string literal (ASCII, no terminating NUL). -/
def bytes (s : String) : List Nat := s.data.map Char.toNat

/-- The editorSyntax struct: one syntax profile (filematch patterns are not
needed by any claim and are omitted). -/
structure editorSyntax where
  filetype : String
  keywords : List (List Nat)
  singleline_comment_start : List Nat
  multiline_comment_start : List Nat
  multiline_comment_end : List Nat
  flags : Nat
deriving DecidableEq, Repr

/-- isspace for ASCII bytes, as used by is_separator. -/
def isspace (c : Nat) : Bool := c == 32 || (9 ≤ c && c ≤ 13)

/-- isdigit for bytes. -/
def isdigit (c : Nat) : Bool := 48 ≤ c && c ≤ 57

/-- is_separator from the source: whitespace, NUL, or one of the fixed
punctuation set (comma, period, parentheses, arithmetic and comparison
operators, brackets, semicolon). -/
def is_separator (c : Nat) : Bool :=
  isspace c || c == 0 || (bytes ",.()+-/*=~%<>[];").contains c

/-- strncmp(&s[i], t, t.length) == 0, for patterns t free of NUL bytes:
the pattern t occurs literally at offset i of s. -/
def matchesAt (s : List Nat) (i : Nat) (t : List Nat) : Bool :=
  (s.drop i).take t.length == t

/-- memset(&l[i], v, n) on a list: overwrite (at most) n entries starting at
index i with v.  Writes past the end are clipped (the C code never performs
them on in-range arguments). -/
def setRange {α : Type} (l : List α) (i n : Nat) (v : α) : List α :=
  l.take i ++ ((l.drop i).take n).map (fun _ => v) ++ l.drop (i + n)

/-- The inner keyword-matching for-loop of editorUpdateSyntax: find the first
keyword that occurs at offset i of render with a separator immediately after
it; return its effective length (without the trailing marker) and whether it
is a secondary (class 2, marker-terminated) keyword. -/
def findKeyword (keywords : List (List Nat)) (render : List Nat) (i : Nat) :
    Option (Nat × Bool) :=
  match keywords with
  | [] => none
  | kw :: rest =>
    let kw2 := kw.getLast? == some 124
    let klen := if kw2 then kw.length - 1 else kw.length
    if matchesAt render i (kw.take klen) && is_separator (render.getD (i + klen) 0) then
      some (klen, kw2)
    else
      findKeyword rest render i

/-- The scanning while-loop of editorUpdateSyntax, translated branch by
branch.  State: scan position i, highlight array hl, prev_sep flag, in_string
(0 or the opening quote byte) and in_comment.  The fuel argument only bounds
the iteration count; every iteration of the C loop advances i by at least one
except a degenerate empty-keyword match (impossible with the C keyword table),
so fuel 2*render.length+1 is never exhausted. -/
def updateSyntaxLoop (s : editorSyntax) (render : List Nat) :
    Nat → Nat → List editorHighlight → Bool → Nat → Bool →
    List editorHighlight × Bool
  | 0, _, hl, _, _, in_comment => (hl, in_comment)
  | fuel + 1, i, hl, prev_sep, in_string, in_comment =>
    if i < render.length then
      let c := render.getD i 0
      let prev_hl := if 0 < i then hl.getD (i - 1) HL_NORMAL else HL_NORMAL
      let scs := s.singleline_comment_start
      let mcs := s.multiline_comment_start
      let mce := s.multiline_comment_end
      if 0 < scs.length && in_string == 0 && !in_comment && matchesAt render i scs then
        (setRange hl i (render.length - i) HL_COMMENT, in_comment)
      else if 0 < mcs.length && 0 < mce.length && in_string == 0 && in_comment then
        let hl := hl.set i HL_MLCOMMENT
        if matchesAt render i mce then
          updateSyntaxLoop s render fuel (i + mce.length)
            (setRange hl i mce.length HL_MLCOMMENT) true 0 false
        else
          updateSyntaxLoop s render fuel (i + 1) hl prev_sep in_string in_comment
      else if 0 < mcs.length && 0 < mce.length && in_string == 0 && matchesAt render i mcs then
        updateSyntaxLoop s render fuel (i + mcs.length)
          (setRange hl i mcs.length HL_MLCOMMENT) prev_sep in_string true
      else if (s.flags &&& HL_HIGHLIGHT_STRINGS != 0) && in_string != 0 then
        let hl := hl.set i HL_STRING
        if c == 92 && i + 1 < render.length then
          updateSyntaxLoop s render fuel (i + 2) (hl.set (i + 1) HL_STRING)
            prev_sep in_string in_comment
        else
          let in_string := if c == in_string then 0 else in_string
          updateSyntaxLoop s render fuel (i + 1) hl true in_string in_comment
      else if (s.flags &&& HL_HIGHLIGHT_STRINGS != 0) && (c == 34 || c == 39) then
        updateSyntaxLoop s render fuel (i + 1) (hl.set i HL_STRING) prev_sep c in_comment
      else if (s.flags &&& HL_HIGHLIGHT_NUMBERS != 0) &&
          ((isdigit c && (prev_sep || prev_hl == HL_NUMBER)) ||
            (c == 46 && prev_hl == HL_NUMBER)) then
        updateSyntaxLoop s render fuel (i + 1) (hl.set i HL_NUMBER) false in_string in_comment
      else if prev_sep then
        match findKeyword s.keywords render i with
        | some (klen, kw2) =>
          updateSyntaxLoop s render fuel (i + klen)
            (setRange hl i klen (if kw2 then HL_KEYWORD2 else HL_KEYWORD1))
            false in_string in_comment
        | none =>
          updateSyntaxLoop s render fuel (i + 1) hl (is_separator c) in_string in_comment
      else
        updateSyntaxLoop s render fuel (i + 1) hl (is_separator c) in_string in_comment
    else
      (hl, in_comment)

/-- One-row scan of editorUpdateSyntax for a present profile: start from an
all-HL_NORMAL highlight array, prev_sep = 1, in_string = 0 and in_comment
given by the predecessor row's hl_open_comment; return the final highlight
array together with the row-final in_comment state. -/
def editorUpdateSyntaxScan (s : editorSyntax) (prevOpen : Bool) (render : List Nat) :
    List editorHighlight × Bool :=
  updateSyntaxLoop s render (2 * render.length + 1) 0
    (List.replicate render.length HL_NORMAL) true 0 prevOpen

/-- C_HL_keywords from the source.  In the C initializer there is no comma
between the adjacent string literals "else" and "struct", so they concatenate
into the single array entry "elsestruct". -/
def C_HL_keywords : List (List Nat) :=
  [bytes "switch", bytes "if", bytes "while", bytes "for", bytes "break",
   bytes "continue", bytes "return", bytes "elsestruct",
   bytes "union", bytes "typedef", bytes "static", bytes "enum",
   bytes "class", bytes "case",
   bytes "int|", bytes "long|", bytes "double|", bytes "float|", bytes "char|",
   bytes "unsigned|", bytes "signed|", bytes "void|"]

/-- The single C entry of the HLDB highlight database. -/
def C_profile : editorSyntax :=
  { filetype := "c"
    keywords := C_HL_keywords
    singleline_comment_start := bytes "//"
    multiline_comment_start := bytes "/*"
    multiline_comment_end := bytes "*/"
    flags := HL_HIGHLIGHT_NUMBERS ||| HL_HIGHLIGHT_STRINGS }

/-- editorRowCxToRx: convert a raw column cx to a rendered column, scanning
chars[0..cx).  Each tab advances the rendered column to the next multiple of
KILO_TAB_STOP; any other byte advances it by one.  Reading past the end of
chars (never done by in-range callers) yields the NUL terminator, modelled by
getD 0. -/
def editorRowCxToRx (chars : List Nat) : Nat → Nat
  | 0 => 0
  | cx + 1 =>
    let rx := editorRowCxToRx chars cx
    if chars.getD cx 0 == 9 then
      rx + ((KILO_TAB_STOP - 1) - rx % KILO_TAB_STOP) + 1
    else
      rx + 1

/-- The loop of editorRowRxToCx: walk the remaining chars with current raw
index cx and rendered column cur_rx; stop at the first raw index whose
updated rendered column exceeds the target rx; fall off the end with the
row size. -/
def editorRowRxToCxGo (rx : Nat) : List Nat → Nat → Nat → Nat
  | [], cx, _ => cx
  | c :: rest, cx, cur_rx =>
    let cur_rx :=
      if c == 9 then cur_rx + ((KILO_TAB_STOP - 1) - cur_rx % KILO_TAB_STOP) + 1
      else cur_rx + 1
    if rx < cur_rx then cx else editorRowRxToCxGo rx rest (cx + 1) cur_rx

/-- editorRowRxToCx: convert a rendered column back to a raw column. -/
def editorRowRxToCx (chars : List Nat) (rx : Nat) : Nat :=
  editorRowRxToCxGo rx chars 0 0

/-- The erow struct.  size and rsize are implicit as chars.length and
render.length. -/
structure erow where
  idx : Nat
  chars : List Nat
  render : List Nat
  hl : List editorHighlight
  hl_open_comment : Bool
deriving DecidableEq, Repr

instance : Inhabited erow := ⟨⟨0, [], [], [], false⟩⟩

/-- The raw byte content of every row of a document. -/
def charsOf (rows : List erow) : List (List Nat) :=
  rows.map (fun r => r.chars)

/-- All rows satisfy the rendered/highlight length invariant. -/
abbrev hlInv (rows : List erow) : Prop :=
  ∀ r ∈ rows, r.hl.length = r.render.length

/-- The modelled part of the editorConfig state.  numrows is kept as an
explicit field exactly as in C: editorInsertRow calls editorUpdateRow before
incrementing numrows, so the comment cascade there reads the
not-yet-incremented count. -/
structure editorConfig where
  cx : Nat
  cy : Nat
  rowoff : Nat
  coloff : Nat
  numrows : Nat
  rows : List erow
  dirty : Nat
  syn : Option editorSyntax
deriving DecidableEq, Repr

/-- initEditor: the empty initial state (screen dimensions are outside the
model). -/
def initialEditor : editorConfig :=
  { cx := 0, cy := 0, rowoff := 0, coloff := 0, numrows := 0, rows := [],
    dirty := 0, syn := none }

/-- The render-construction loop of editorUpdateRow: a tab at render index
idx emits one space then pads with spaces up to the next multiple of
KILO_TAB_STOP; every other byte is copied verbatim. -/
def renderChars : List Nat → Nat → List Nat
  | [], _ => []
  | c :: rest, idx =>
    if c == 9 then
      let pad := KILO_TAB_STOP - idx % KILO_TAB_STOP
      List.replicate pad 32 ++ renderChars rest (idx + pad)
    else
      c :: renderChars rest (idx + 1)

/-- editorUpdateSyntax at the document level, operating on the row at
position i (the row operations keep erow.idx equal to the position, which
the C code uses for addressing).  Recomputes row i's hl from its render, the
active profile and row (i-1)'s hl_open_comment; if the row's own
hl_open_comment changes and i+1 < numrows, cascades to row i+1.  The fuel
argument only bounds the cascade depth; the editorUpdateSyntax wrapper
passes enough (see the cascade theorems). -/
def editorUpdateSyntaxFuel (syn : Option editorSyntax) (numrows : Nat) :
    Nat → List erow → Nat → List erow
  | 0, rows, _ => rows
  | fuel + 1, rows, i =>
    let row := rows.getD i default
    match syn with
    | none => rows.set i { row with hl := List.replicate row.render.length HL_NORMAL }
    | some s =>
      let prevOpen : Bool := decide (0 < i) && (rows.getD (i - 1) default).hl_open_comment
      let scanned := editorUpdateSyntaxScan s prevOpen row.render
      let rows2 := rows.set i { row with hl := scanned.1, hl_open_comment := scanned.2 }
      if row.hl_open_comment ≠ scanned.2 ∧ i + 1 < numrows then
        editorUpdateSyntaxFuel syn numrows fuel rows2 (i + 1)
      else
        rows2

/-- editorUpdateSyntax on the row at position i, with fuel covering the
whole remaining cascade. -/
def editorUpdateSyntax (syn : Option editorSyntax) (numrows : Nat)
    (rows : List erow) (i : Nat) : List erow :=
  editorUpdateSyntaxFuel syn numrows (numrows + 1 - i) rows i

/-- editorUpdateRow on the row at position i: recompute its render from its
chars, then rerun editorUpdateSyntax on it. -/
def editorUpdateRow (syn : Option editorSyntax) (numrows : Nat)
    (rows : List erow) (i : Nat) : List erow :=
  let row := rows.getD i default
  editorUpdateSyntax syn numrows
    (rows.set i { row with render := renderChars row.chars 0 }) i

/-- editorInsertRow: validate 0 <= at <= numrows, shift subsequent rows and
bump their idx, install the new row, update its render and highlight (with
numrows still un-incremented, matching the C call order), then increment
numrows and dirty. -/
def editorInsertRow (E : editorConfig) (at_ : Int) (s : List Nat) : editorConfig :=
  if at_ < 0 ∨ at_ > (E.numrows : Int) then E
  else
    let a := at_.toNat
    let newRow : erow :=
      { idx := a, chars := s, render := [], hl := [], hl_open_comment := false }
    let rows := E.rows.take a
      ++ newRow :: (E.rows.drop a).map (fun r => { r with idx := r.idx + 1 })
    let rows := editorUpdateRow E.syn E.numrows rows a
    { E with rows := rows, numrows := E.numrows + 1, dirty := E.dirty + 1 }

/-- editorDelRow: validate bounds, remove the row, decrement the idx of the
shifted rows, decrement numrows, increment dirty. -/
def editorDelRow (E : editorConfig) (at_ : Int) : editorConfig :=
  if at_ < 0 ∨ at_ ≥ (E.numrows : Int) then E
  else
    let a := at_.toNat
    let rows := E.rows.take a
      ++ (E.rows.drop (a + 1)).map (fun r => { r with idx := r.idx - 1 })
    { E with rows := rows, numrows := E.numrows - 1, dirty := E.dirty + 1 }

/-- editorRowDelChar on the row at position i: remove the byte at column at,
then editorUpdateRow. -/
def editorRowDelChar (E : editorConfig) (i : Nat) (at_ : Int) : editorConfig :=
  let row := E.rows.getD i default
  if at_ < 0 ∨ at_ ≥ (row.chars.length : Int) then E
  else
    let a := at_.toNat
    let rows := E.rows.set i
      { row with chars := row.chars.take a ++ row.chars.drop (a + 1) }
    { E with rows := editorUpdateRow E.syn E.numrows rows i, dirty := E.dirty + 1 }

/-- editorRowAppendString on the row at position i: append the bytes s to
the row's chars, then editorUpdateRow. -/
def editorRowAppendString (E : editorConfig) (i : Nat) (s : List Nat) : editorConfig :=
  let row := E.rows.getD i default
  let rows := E.rows.set i { row with chars := row.chars ++ s }
  { E with rows := editorUpdateRow E.syn E.numrows rows i, dirty := E.dirty + 1 }

/-- editorInsertNewline: at column 0 insert an empty row before the current
one; otherwise split the current row at cx (the new row receives the bytes
from cx on, the current row is truncated to cx and re-rendered).  The cursor
moves to column 0 of the next row. -/
def editorInsertNewline (E : editorConfig) : editorConfig :=
  if E.cx = 0 then
    let E1 := editorInsertRow E (E.cy : Int) []
    { E1 with cy := E.cy + 1, cx := 0 }
  else
    let row := E.rows.getD E.cy default
    let E1 := editorInsertRow E ((E.cy : Int) + 1) (row.chars.drop E.cx)
    let row1 := E1.rows.getD E.cy default
    let rows := E1.rows.set E.cy { row1 with chars := row1.chars.take E.cx }
    let rows := editorUpdateRow E1.syn E1.numrows rows E.cy
    { E1 with rows := rows, cy := E.cy + 1, cx := 0 }

/-- editorDelChar: no-op past EOF or at the document start; with cx > 0
delete the byte left of the cursor; with cx = 0 record the previous row's
size, append this row's chars to the previous row, delete this row and move
the cursor to the join point. -/
def editorDelChar (E : editorConfig) : editorConfig :=
  if E.cy = E.numrows then E
  else if E.cx = 0 ∧ E.cy = 0 then E
  else
    let row := E.rows.getD E.cy default
    if 0 < E.cx then
      let E1 := editorRowDelChar E E.cy ((E.cx : Int) - 1)
      { E1 with cx := E.cx - 1 }
    else
      let newCx := (E.rows.getD (E.cy - 1) default).chars.length
      let E1 := editorRowAppendString E (E.cy - 1) row.chars
      let E2 := editorDelRow E1 (E.cy : Int)
      { E2 with cx := newCx, cy := E.cy - 1 }

def BACKSPACE : Nat := 127

def ARROW_LEFT : Nat := 1000

def ARROW_RIGHT : Nat := 1001

def ARROW_UP : Nat := 1002

def ARROW_DOWN : Nat := 1003

def DEL_KEY : Nat := 1004

def HOME_KEY : Nat := 1005

def END_KEY : Nat := 1006

def PAGE_UP : Nat := 1007

def PAGE_DOWN : Nat := 1008

/-- editorReadKey: first is the byte returned by the initial blocking read;
pending holds the bytes available to the short-timeout follow-up reads (an
exhausted list models a timed-out read).  Escape sequences are decoded
exactly as the source does, including its comparison of seq[0] against the
digit '0' (0x30) in the alternate Home/End branch. -/
def editorReadKey (first : Nat) (pending : List Nat) : Nat :=
  if first = 27 then
    match pending with
    | [] => 27
    | [_] => 27
    | s0 :: s1 :: rest =>
      if s0 = 91 then
        if 48 ≤ s1 ∧ s1 ≤ 57 then
          match rest with
          | [] => 27
          | s2 :: _ =>
            if s2 = 126 then
              if s1 = 49 then HOME_KEY
              else if s1 = 52 then END_KEY
              else if s1 = 53 then PAGE_UP
              else if s1 = 54 then PAGE_DOWN
              else if s1 = 55 then HOME_KEY
              else if s1 = 56 then END_KEY
              else 27
            else 27
        else
          if s1 = 65 then ARROW_UP
          else if s1 = 66 then ARROW_DOWN
          else if s1 = 67 then ARROW_RIGHT
          else if s1 = 68 then ARROW_LEFT
          else if s1 = 72 then HOME_KEY
          else if s1 = 70 then END_KEY
          else 27
      else if s0 = 48 then
        if s1 = 72 then HOME_KEY
        else if s1 = 70 then END_KEY
        else 27
      else 27
  else first

/-- The quit-confirmation logic of editorProcessKeypress: the static
quit_times counter and whether the keypress exits the process.  A Ctrl-Q
with unsaved edits and a positive counter decrements the counter and
returns early (skipping the trailing reset); a Ctrl-Q otherwise exits; the
dispatch path of every other key falls through to the trailing
quit_times = KILO_QUIT_TIMES reset and never exits.  dirty is the value of
E.dirty sampled when the key is processed. -/
def editorProcessKeypressQuit (dirty quit_times c : Nat) : Nat × Bool :=
  if c = CTRL_KEY 113 then
    if dirty ≠ 0 ∧ 0 < quit_times then (quit_times - 1, false)
    else (quit_times, true)
  else (KILO_QUIT_TIMES, false)

/-- Run a sequence of (dirty, key) events through the quit logic, returning
the index of the first event at which the process exits, if any. -/
def runQuit (quit_times : Nat) : List (Nat × Nat) → Option Nat
  | [] => none
  | ev :: rest =>
    let r := editorProcessKeypressQuit ev.1 quit_times ev.2
    if r.2 then some 0 else (runQuit r.1 rest).map (fun n => n + 1)

/-- The static locals of editorFindCallback made explicit. -/
structure findState where
  last_match : Int
  direction : Int
  saved_hl_line : Nat
  saved_hl : Option (List editorHighlight)
deriving DecidableEq, Repr

/-- The static locals of editorFindCallback at program start. -/
def initialFindState : findState :=
  { last_match := -1, direction := 1, saved_hl_line := 0, saved_hl := none }

/-- strstr on NUL-free byte lists: the offset of the first occurrence of
needle as a literal substring of hay (0 for an empty needle), none when
there is no occurrence. -/
def strstrIdx (needle : List Nat) : List Nat → Option Nat
  | [] => if needle.length = 0 then some 0 else none
  | c :: rest =>
    if (c :: rest).take needle.length == needle then some 0
    else (strstrIdx needle rest).map (fun n => n + 1)

/-- The row-scanning for-loop of editorFindCallback: starting from
last_match, advance current by direction with wrap-around and return the
first row containing the query, together with the strstr match offset into
its render; at most numrows rows are examined. -/
def findLoop (rows : List erow) (numrows : Nat) (query : List Nat) (direction : Int) :
    Nat → Int → Option (Nat × Nat)
  | 0, _ => none
  | fuel + 1, current =>
    let current := current + direction
    let current : Int :=
      if current = -1 then (numrows : Int) - 1
      else if current = (numrows : Int) then 0 else current
    let c := current.toNat
    match strstrIdx query (rows.getD c default).render with
    | some off => some (c, off)
    | none => findLoop rows numrows query direction fuel current

/-- editorFindCallback: one invocation of the search callback with the
current query and the key that triggered it; the static locals become the
explicit findState.  On a match the source first assigns
E.cx = editorRowRxToCx(row, match - row->render) and then immediately
overwrites it with E.cx = match - row->render (the raw render offset); both
assignments are modelled in order. -/
def editorFindCallback (E : editorConfig) (st : findState) (query : List Nat)
    (key : Nat) : editorConfig × findState :=
  let E :=
    match st.saved_hl with
    | some saved =>
      let row := E.rows.getD st.saved_hl_line default
      let newHl := saved.take row.render.length ++ row.hl.drop row.render.length
      let row2 := { row with hl := newHl }
      { E with rows := E.rows.set st.saved_hl_line row2 }
    | none => E
  let st := { st with saved_hl := none }
  if key = 13 ∨ key = 27 then
    (E, { st with last_match := -1, direction := 1 })
  else
    let st :=
      if key = ARROW_RIGHT ∨ key = ARROW_DOWN then { st with direction := 1 }
      else if key = ARROW_LEFT ∨ key = ARROW_UP then { st with direction := -1 }
      else { st with last_match := -1, direction := 1 }
    let st := if st.last_match = -1 then { st with direction := 1 } else st
    match findLoop E.rows E.numrows query st.direction E.numrows st.last_match with
    | none => (E, st)
    | some (cur, off) =>
      let st := { st with last_match := (cur : Int) }
      let row := E.rows.getD cur default
      let E := { E with cy := cur }
      let E := { E with cx := editorRowRxToCx row.chars off }
      let E := { E with cx := off }
      let E := { E with rowoff := E.numrows }
      let st := { st with saved_hl_line := cur, saved_hl := some row.hl }
      let row2 := { row with hl := setRange row.hl off query.length HL_MATCH }
      let E := { E with rows := E.rows.set cur row2 }
      (E, st)

/-- C1 counterexample: scanning the rendered text "int x" with the C profile
classifies the byte at offset 0 as HL_KEYWORD2, not HL_KEYWORD1, because the
keyword table lists "int|" with the trailing secondary-class marker. -/
theorem int_keyword_class1_counterexample :
    (editorUpdateSyntaxScan C_profile false (bytes "int x")).1.getD 0 HL_NORMAL
      = HL_KEYWORD2 ∧ HL_KEYWORD2 ≠ HL_KEYWORD1 := by
  decide

/-- C1 (amended): scanning "int x" with the C profile classifies the token
int as KeywordClass2 (a separator precedes the match start and follows the
match end, and "int|" carries the secondary-class marker), and scanning
"intX" classifies no character of int as a keyword (no separator after the
match end). -/
theorem int_keyword_classification :
    (editorUpdateSyntaxScan C_profile false (bytes "int x")).1
      = [HL_KEYWORD2, HL_KEYWORD2, HL_KEYWORD2, HL_NORMAL, HL_NORMAL]
    ∧ (editorUpdateSyntaxScan C_profile false (bytes "intX")).1
      = [HL_NORMAL, HL_NORMAL, HL_NORMAL, HL_NORMAL] := by
  decide

/-- One editorRowCxToRx step never decreases the rendered column. -/
theorem editorRowCxToRx_le_succ (chars : List Nat) (cx : Nat) :
    editorRowCxToRx chars cx ≤ editorRowCxToRx chars (cx + 1) := by
  simp only [editorRowCxToRx]
  split <;> omega

/-- editorRowCxToRx is monotone under adding steps. -/
theorem editorRowCxToRx_le_add (chars : List Nat) (cx d : Nat) :
    editorRowCxToRx chars cx ≤ editorRowCxToRx chars (cx + d) := by
  induction d with
  | zero => exact Nat.le_refl _
  | succ d ih => exact Nat.le_trans ih (editorRowCxToRx_le_succ chars (cx + d))

/-- An in-range getD result is a member of the list. -/
theorem getD_mem_of_lt {α : Type} (l : List α) (i : Nat) (d : α) (h : i < l.length) :
    l.getD i d ∈ l := by
  induction l generalizing i with
  | nil => simp at h
  | cons x xs ih =>
    cases i with
    | zero => simp [List.getD_cons_zero]
    | succ j =>
      rw [List.getD_cons_succ]
      exact List.mem_cons_of_mem _ (ih j (Nat.lt_of_succ_lt_succ h))

/-- On tab-free content editorRowCxToRx is the identity on in-range columns. -/
theorem editorRowCxToRx_no_tabs (chars : List Nat) (hnt : ∀ c ∈ chars, c ≠ 9) :
    ∀ cx, cx ≤ chars.length → editorRowCxToRx chars cx = cx := by
  intro cx
  induction cx with
  | zero => intro _; rfl
  | succ n ih =>
    intro h
    have hn : editorRowCxToRx chars n = n := ih (Nat.le_of_succ_le h)
    have hne : chars.getD n 0 ≠ 9 :=
      hnt _ (getD_mem_of_lt chars n 0 (Nat.lt_of_succ_le h))
    have hb : (chars.getD n 0 == 9) = false := by simpa using hne
    simp only [editorRowCxToRx, hn, hb, Bool.false_eq_true, if_false]

/-- C5: for every row, editorRowCxToRx is monotonically non-decreasing in cx
(unconditionally, tab-free rows included), and whenever the byte at raw
column cx is a tab, encountered at rendered column r, the rendered column
advances to r + (KILO_TAB_STOP - r % KILO_TAB_STOP). -/
theorem cx_to_rx_monotone_tab_step (chars : List Nat) (cx1 cx2 cx : Nat)
    (h12 : cx1 ≤ cx2) :
    editorRowCxToRx chars cx1 ≤ editorRowCxToRx chars cx2 ∧
    (chars.getD cx 0 = 9 →
      editorRowCxToRx chars (cx + 1)
        = editorRowCxToRx chars cx
          + (KILO_TAB_STOP - editorRowCxToRx chars cx % KILO_TAB_STOP)) := by
  constructor
  · obtain ⟨d, rfl⟩ := Nat.le.dest h12
    exact editorRowCxToRx_le_add chars cx1 d
  · intro htab
    have hb : (chars.getD cx 0 == 9) = true := by rw [htab]; rfl
    simp only [editorRowCxToRx, hb, if_true]
    simp only [KILO_TAB_STOP]
    omega

/-- C5 witness: concrete instance on the row consisting of a tab then 'a'. -/
theorem cx_to_rx_monotone_tab_step_witness :
    editorRowCxToRx [9, 97] 1 ≤ editorRowCxToRx [9, 97] 2 ∧
    (([9, 97] : List Nat).getD 0 0 = 9 →
      editorRowCxToRx [9, 97] (0 + 1)
        = editorRowCxToRx [9, 97] 0
          + (KILO_TAB_STOP - editorRowCxToRx [9, 97] 0 % KILO_TAB_STOP)) :=
  cx_to_rx_monotone_tab_step [9, 97] 1 2 0 (by decide)

/-- The editorRowRxToCx loop stops exactly at the target on tab-free content
when the target rendered column lies strictly inside the row. -/
theorem editorRowRxToCxGo_hit (rx : Nat) :
    ∀ (l : List Nat) (cx : Nat), (∀ c ∈ l, c ≠ 9) → cx ≤ rx → rx < cx + l.length →
    editorRowRxToCxGo rx l cx cx = rx := by
  intro l
  induction l with
  | nil => intro cx _ h1 h2; simp at h2; omega
  | cons c rest ih =>
    intro cx hnt h1 h2
    have hc : (c == 9) = false := by
      simp [hnt c (List.mem_cons_self _ _)]
    simp only [editorRowRxToCxGo, hc, Bool.false_eq_true, if_false]
    by_cases hlt : rx < cx + 1
    · have : rx = cx := by omega
      rw [if_pos hlt, this]
    · rw [if_neg hlt]
      refine ih (cx + 1) (fun d hd => hnt d (List.mem_cons_of_mem _ hd)) (by omega) ?_
      simp at h2
      omega

/-- The editorRowRxToCx loop falls off the end with the row size when the
target rendered column is at or past the end, on tab-free content. -/
theorem editorRowRxToCxGo_end (rx : Nat) :
    ∀ (l : List Nat) (cx : Nat), (∀ c ∈ l, c ≠ 9) → cx + l.length ≤ rx →
    editorRowRxToCxGo rx l cx cx = cx + l.length := by
  intro l
  induction l with
  | nil => intro cx _ _; simp [editorRowRxToCxGo]
  | cons c rest ih =>
    intro cx hnt h2
    have hc : (c == 9) = false := by
      simp [hnt c (List.mem_cons_self _ _)]
    simp only [editorRowRxToCxGo, hc, Bool.false_eq_true, if_false]
    simp only [List.length_cons] at h2
    rw [if_neg (by omega)]
    have := ih (cx + 1) (fun d hd => hnt d (List.mem_cons_of_mem _ hd)) (by omega)
    rw [this]
    simp only [List.length_cons]
    omega

/-- C6: on a row whose raw content contains no tab byte, the coordinate
conversions round-trip: editorRowRxToCx of editorRowCxToRx is the identity
for every cx in [0, chars.length]. -/
theorem rx_cx_roundtrip_no_tabs (chars : List Nat) (cx : Nat)
    (hnt : ∀ c ∈ chars, c ≠ 9) (hcx : cx ≤ chars.length) :
    editorRowRxToCx chars (editorRowCxToRx chars cx) = cx := by
  rw [editorRowCxToRx_no_tabs chars hnt cx hcx]
  unfold editorRowRxToCx
  rcases Nat.lt_or_ge cx chars.length with h | h
  · exact editorRowRxToCxGo_hit cx chars 0 hnt (Nat.zero_le _) (by omega)
  · have heq : cx = chars.length := Nat.le_antisymm hcx h
    rw [heq]
    simpa using editorRowRxToCxGo_end chars.length chars 0 hnt (by omega)

/-- C6 witness: concrete instance on the tab-free row "abc". -/
theorem rx_cx_roundtrip_no_tabs_witness :
    editorRowRxToCx [97, 98, 99] (editorRowCxToRx [97, 98, 99] 2) = 2 :=
  rx_cx_roundtrip_no_tabs [97, 98, 99] 2 (by decide) (by decide)

/-- C10: out-of-range row operations are silent no-ops: editorInsertRow with
at < 0 or at > numrows leaves the whole editor state unchanged, and
editorDelRow with at < 0 or at >= numrows leaves the whole editor state
unchanged. -/
theorem out_of_range_row_ops_noop (E : editorConfig) (a : Int) (s : List Nat) :
    ((a < 0 ∨ a > (E.numrows : Int)) → editorInsertRow E a s = E) ∧
    ((a < 0 ∨ a ≥ (E.numrows : Int)) → editorDelRow E a = E) := by
  refine ⟨fun h => ?_, fun h => ?_⟩
  · unfold editorInsertRow
    rw [if_pos h]
  · unfold editorDelRow
    rw [if_pos h]

/-- C10 witness: inserting at -1 and deleting at 0 in the empty document
leave the state unchanged. -/
theorem out_of_range_row_ops_noop_witness :
    (editorInsertRow initialEditor (-1) [97] = initialEditor) ∧
    (editorDelRow initialEditor 0 = initialEditor) :=
  ⟨(out_of_range_row_ops_noop initialEditor (-1) [97]).1 (Or.inl (by decide)),
   (out_of_range_row_ops_noop initialEditor 0 [97]).2 (Or.inr (by decide))⟩

/-- C3: evaluating the key decoder at the failing inputs: after the escape
byte, the byte 'O' (0x4F) followed by 'H' or 'F' decodes to bare Escape
(27), not Home/End, because the source compares seq[0] against the digit
'0' (0x30); the digit sequences ESC 0 H / ESC 0 F are the ones that decode
to Home/End, and ESC [ H still decodes to Home. -/
theorem esc_O_decodes_to_escape :
    editorReadKey 27 [79, 72] = 27 ∧
    editorReadKey 27 [79, 70] = 27 ∧
    27 ≠ HOME_KEY ∧ 27 ≠ END_KEY ∧
    editorReadKey 27 [48, 72] = HOME_KEY ∧
    editorReadKey 27 [48, 70] = END_KEY ∧
    editorReadKey 27 [91, 72] = HOME_KEY := by
  decide

/-- C2: evaluating the search match step on the single-row document with raw
content TAB,'i','n','t' and query "int": the callback sets the cursor row to
the matched row 0, but stores the raw render offset 8 into cx instead of the
converted byte offset editorRowRxToCx(row, 8) = 1; the row's raw content is
only 4 bytes long, so cx = 8 even violates the documented cursor invariant. -/
theorem find_callback_sets_render_offset :
    (editorFindCallback (editorInsertRow initialEditor 0 (bytes "\tint"))
        initialFindState (bytes "int") 110).1.cy = 0 ∧
    (editorFindCallback (editorInsertRow initialEditor 0 (bytes "\tint"))
        initialFindState (bytes "int") 110).1.cx = 8 ∧
    editorRowRxToCx (bytes "\tint") 8 = 1 ∧ (8 : Nat) ≠ 1 ∧
    ((editorInsertRow initialEditor 0 (bytes "\tint")).rows.getD 0
        default).chars.length = 4 := by
  decide

/-- Any key other than Ctrl-Q resets the quit counter to KILO_QUIT_TIMES and
does not exit. -/
theorem editorProcessKeypressQuit_reset (dirty qt c : Nat) (h : c ≠ CTRL_KEY 113) :
    editorProcessKeypressQuit dirty qt c = (KILO_QUIT_TIMES, false) := by
  unfold editorProcessKeypressQuit
  rw [if_neg h]

/-- getD on a cons at a positive index. -/
theorem getD_cons_pos {α : Type} (a : α) (l : List α) (j : Nat) (d : α)
    (h : 1 ≤ j) : (a :: l).getD j d = l.getD (j - 1) d := by
  cases j with
  | zero => omega
  | succ j' => simp [List.getD_cons_succ]

/-- Shape of a quit exit, generalized over the starting counter: if the run
exits at index n and every sampled dirty value is nonzero, then at least
min(qt, KILO_QUIT_TIMES) keys precede the exit, the exiting key is Ctrl-Q,
and so are the two keys before it (when they exist). -/
theorem runQuit_exit_shape :
    ∀ (evs : List (Nat × Nat)) (qt n : Nat),
      (∀ ev ∈ evs, ev.1 ≠ 0) → runQuit qt evs = some n →
      min qt KILO_QUIT_TIMES ≤ n ∧
      (evs.getD n default).2 = CTRL_KEY 113 ∧
      (1 ≤ n → (evs.getD (n - 1) default).2 = CTRL_KEY 113) ∧
      (2 ≤ n → (evs.getD (n - 2) default).2 = CTRL_KEY 113) := by
  intro evs
  induction evs with
  | nil => intro qt n _ hrun; simp [runQuit] at hrun
  | cons ev rest ih =>
    intro qt n hd hrun
    have hd1 : ev.1 ≠ 0 := hd ev (List.mem_cons_self _ _)
    have hdrest : ∀ e ∈ rest, e.1 ≠ 0 := fun e he => hd e (List.mem_cons_of_mem _ he)
    by_cases hc : ev.2 = CTRL_KEY 113
    · by_cases hqt : 0 < qt
      · have hstep : editorProcessKeypressQuit ev.1 qt ev.2 = (qt - 1, false) := by
          unfold editorProcessKeypressQuit
          rw [if_pos hc, if_pos ⟨hd1, hqt⟩]
        simp only [runQuit, hstep, Bool.false_eq_true, if_false] at hrun
        rw [Option.map_eq_some'] at hrun
        obtain ⟨m, hm, rfl⟩ := hrun
        obtain ⟨h1, h2, h3, h4⟩ := ih (qt - 1) m hdrest hm
        refine ⟨?_, ?_, ?_, ?_⟩
        · simp only [KILO_QUIT_TIMES] at h1 ⊢
          omega
        · rw [List.getD_cons_succ]
          exact h2
        · intro _
          rcases Nat.eq_zero_or_pos m with rfl | hmpos
          · simpa using hc
          · rw [show m + 1 - 1 = (m - 1) + 1 by omega, List.getD_cons_succ]
            exact h3 hmpos
        · intro hn2
          rcases Nat.lt_or_ge m 2 with hm2 | hm2
          · have hm1 : m = 1 := by omega
            subst hm1
            simpa using hc
          · rw [show m + 1 - 2 = (m - 2) + 1 by omega, List.getD_cons_succ]
            exact h4 hm2
      · have hqt0 : qt = 0 := by omega
        have hstep : editorProcessKeypressQuit ev.1 qt ev.2 = (qt, true) := by
          unfold editorProcessKeypressQuit
          rw [if_pos hc, if_neg (by omega)]
        simp only [runQuit, hstep, if_true] at hrun
        have hn : n = 0 := by
          simpa using hrun.symm
        subst hn
        refine ⟨by simp [hqt0], by simpa using hc, ?_, ?_⟩ <;> intro h <;> omega
    · have hstep : editorProcessKeypressQuit ev.1 qt ev.2 = (KILO_QUIT_TIMES, false) :=
        editorProcessKeypressQuit_reset _ _ _ hc
      simp only [runQuit, hstep, Bool.false_eq_true, if_false] at hrun
      rw [Option.map_eq_some'] at hrun
      obtain ⟨m, hm, rfl⟩ := hrun
      obtain ⟨h1, h2, h3, h4⟩ := ih KILO_QUIT_TIMES m hdrest hm
      have h1' : 2 ≤ m := by simpa [KILO_QUIT_TIMES] using h1
      refine ⟨?_, ?_, ?_, ?_⟩
      · simp only [KILO_QUIT_TIMES]
        omega
      · rw [List.getD_cons_succ]
        exact h2
      · intro _
        rw [show m + 1 - 1 = (m - 1) + 1 by omega, List.getD_cons_succ]
        exact h3 (by omega)
      · intro _
        rw [show m + 1 - 2 = (m - 2) + 1 by omega, List.getD_cons_succ]
        exact h4 h1'

/-- C8: when every keypress is observed with a nonzero dirty counter, the
process exits at event n only if the quit key Ctrl-Q was observed
KILO_QUIT_TIMES (= 2) consecutive times immediately before the exiting
press (which is itself Ctrl-Q), and any key other than Ctrl-Q resets the
confirmation counter to its default KILO_QUIT_TIMES without exiting. -/
theorem quit_requires_consecutive_presses (evs : List (Nat × Nat)) (n : Nat)
    (hd : ∀ ev ∈ evs, ev.1 ≠ 0) (hrun : runQuit KILO_QUIT_TIMES evs = some n) :
    KILO_QUIT_TIMES ≤ n ∧
    (evs.getD (n - 1) default).2 = CTRL_KEY 113 ∧
    (evs.getD (n - 2) default).2 = CTRL_KEY 113 ∧
    (evs.getD n default).2 = CTRL_KEY 113 ∧
    ∀ dirty qt c, c ≠ CTRL_KEY 113 →
      editorProcessKeypressQuit dirty qt c = (KILO_QUIT_TIMES, false) := by
  obtain ⟨h1, h2, h3, h4⟩ := runQuit_exit_shape evs KILO_QUIT_TIMES n hd hrun
  have h2' : KILO_QUIT_TIMES ≤ n := by simpa using h1
  have hn2 : 2 ≤ n := by simpa [KILO_QUIT_TIMES] using h2'
  exact ⟨h2', h3 (by omega), h4 hn2, h2,
    fun d q c hc => editorProcessKeypressQuit_reset d q c hc⟩

/-- C8 witness: three consecutive dirty Ctrl-Q presses exit at index 2. -/
theorem quit_requires_consecutive_presses_witness :
    KILO_QUIT_TIMES ≤ 2 ∧
    (([(1, 17), (1, 17), (1, 17)] : List (Nat × Nat)).getD (2 - 1) default).2
      = CTRL_KEY 113 ∧
    (([(1, 17), (1, 17), (1, 17)] : List (Nat × Nat)).getD (2 - 2) default).2
      = CTRL_KEY 113 ∧
    (([(1, 17), (1, 17), (1, 17)] : List (Nat × Nat)).getD 2 default).2
      = CTRL_KEY 113 ∧
    ∀ dirty qt c, c ≠ CTRL_KEY 113 →
      editorProcessKeypressQuit dirty qt c = (KILO_QUIT_TIMES, false) :=
  quit_requires_consecutive_presses [(1, 17), (1, 17), (1, 17)] 2
    (by decide) (by decide)

/-- setRange preserves the length of the list. -/
theorem setRange_length {α : Type} (l : List α) (i n : Nat) (v : α) :
    (setRange l i n v).length = l.length := by
  simp [setRange]
  omega

/-- The editorUpdateSyntax scan loop never changes the length of the
highlight array. -/
theorem updateSyntaxLoop_length (s : editorSyntax) (render : List Nat) :
    ∀ fuel i hl ps istr icom,
      (updateSyntaxLoop s render fuel i hl ps istr icom).1.length = hl.length := by
  intro fuel
  induction fuel with
  | zero => intro i hl ps istr icom; rfl
  | succ fuel ih =>
    intro i hl ps istr icom
    simp only [updateSyntaxLoop]
    repeat' split
    all_goals simp [ih, setRange_length, List.length_set]

/-- editorUpdateSyntaxScan returns a highlight array of the render's
length. -/
theorem editorUpdateSyntaxScan_length (s : editorSyntax) (p : Bool)
    (render : List Nat) :
    (editorUpdateSyntaxScan s p render).1.length = render.length := by
  unfold editorUpdateSyntaxScan
  rw [updateSyntaxLoop_length]
  simp

/-- getD past the end of the list yields the default. -/
theorem getD_eq_default_of_le {α : Type} (l : List α) (i : Nat) (d : α)
    (h : l.length ≤ i) : l.getD i d = d := by
  induction l generalizing i with
  | nil => cases i <;> rfl
  | cons x xs ih =>
    cases i with
    | zero => simp at h
    | succ j => rw [List.getD_cons_succ]; exact ih j (by simpa using h)

/-- The length invariant transfers to any getD access. -/
theorem hlInv_getD (rows : List erow) (h : hlInv rows) (i : Nat) :
    (rows.getD i default).hl.length = (rows.getD i default).render.length := by
  rcases Nat.lt_or_ge i rows.length with hlt | hge
  · exact h _ (getD_mem_of_lt rows i default hlt)
  · rw [getD_eq_default_of_le rows i default hge]
    rfl

/-- editorUpdateSyntaxFuel preserves the all-rows length invariant. -/
theorem editorUpdateSyntaxFuel_hlInv (syn : Option editorSyntax) (numrows : Nat) :
    ∀ fuel rows i, hlInv rows →
      hlInv (editorUpdateSyntaxFuel syn numrows fuel rows i) := by
  intro fuel
  induction fuel with
  | zero => intro rows i h; exact h
  | succ fuel ih =>
    intro rows i h
    cases syn with
    | none =>
      simp only [editorUpdateSyntaxFuel]
      intro r hr
      rcases List.mem_or_eq_of_mem_set hr with h1 | rfl
      · exact h r h1
      · simp
    | some s =>
      simp only [editorUpdateSyntaxFuel]
      split
      · apply ih
        intro r hr
        rcases List.mem_or_eq_of_mem_set hr with h1 | rfl
        · exact h r h1
        · simpa using editorUpdateSyntaxScan_length s _ _
      · intro r hr
        rcases List.mem_or_eq_of_mem_set hr with h1 | rfl
        · exact h r h1
        · simpa using editorUpdateSyntaxScan_length s _ _

/-- One editorUpdateSyntaxFuel step freshly recomputes row i's highlight, so
running it right after row i was replaced by an arbitrary row restores the
invariant for the whole document. -/
theorem editorUpdateSyntaxFuel_hlInv_set (syn : Option editorSyntax)
    (numrows fuel : Nat) (rows : List erow) (i : Nat) (r : erow)
    (h : hlInv rows) (hf : 0 < fuel) :
    hlInv (editorUpdateSyntaxFuel syn numrows fuel (rows.set i r) i) := by
  obtain ⟨fuel, rfl⟩ : ∃ f, fuel = f + 1 := ⟨fuel - 1, by omega⟩
  cases syn with
  | none =>
    simp only [editorUpdateSyntaxFuel]
    rw [List.set_set]
    intro x hx
    rcases List.mem_or_eq_of_mem_set hx with h1 | rfl
    · exact h x h1
    · simp
  | some s =>
    simp only [editorUpdateSyntaxFuel]
    rw [List.set_set]
    split
    · apply editorUpdateSyntaxFuel_hlInv
      intro x hx
      rcases List.mem_or_eq_of_mem_set hx with h1 | rfl
      · exact h x h1
      · simpa using editorUpdateSyntaxScan_length s _ _
    · intro x hx
      rcases List.mem_or_eq_of_mem_set hx with h1 | rfl
      · exact h x h1
      · simpa using editorUpdateSyntaxScan_length s _ _

/-- editorUpdateRow restores the invariant for the whole document whenever
the touched position is within numrows. -/
theorem editorUpdateRow_hlInv (syn : Option editorSyntax) (numrows : Nat)
    (rows : List erow) (i : Nat) (h : hlInv rows) (hi : i ≤ numrows) :
    hlInv (editorUpdateRow syn numrows rows i) := by
  unfold editorUpdateRow editorUpdateSyntax
  exact editorUpdateSyntaxFuel_hlInv_set syn numrows _ rows i _ h (by omega)

/-- editorInsertRow preserves the invariant. -/
theorem editorInsertRow_hlInv (E : editorConfig) (a : Int) (s : List Nat)
    (h : hlInv E.rows) : hlInv ((editorInsertRow E a s).rows) := by
  unfold editorInsertRow
  split
  · exact h
  · next hg =>
    apply editorUpdateRow_hlInv
    · intro r hr
      rcases List.mem_append.mp hr with h1 | h2
      · exact h r (List.mem_of_mem_take h1)
      · rcases List.mem_cons.mp h2 with rfl | h3
        · rfl
        · obtain ⟨x, hx, rfl⟩ := List.mem_map.mp h3
          exact h x (List.mem_of_mem_drop hx)
    · omega
  

/-- editorDelRow preserves the invariant. -/
theorem editorDelRow_hlInv (E : editorConfig) (a : Int)
    (h : hlInv E.rows) : hlInv ((editorDelRow E a).rows) := by
  unfold editorDelRow
  split
  · exact h
  · intro r hr
    rcases List.mem_append.mp hr with h1 | h2
    · exact h r (List.mem_of_mem_take h1)
    · obtain ⟨x, hx, rfl⟩ := List.mem_map.mp h2
      exact h x (List.mem_of_mem_drop hx)

/-- editorRowDelChar preserves the invariant for in-range row positions. -/
theorem editorRowDelChar_hlInv (E : editorConfig) (i : Nat) (a : Int)
    (h : hlInv E.rows) (hi : i ≤ E.numrows) :
    hlInv ((editorRowDelChar E i a).rows) := by
  simp only [editorRowDelChar]
  split
  · exact h
  · apply editorUpdateRow_hlInv _ _ _ _ _ hi
    intro r hr
    rcases List.mem_or_eq_of_mem_set hr with h1 | rfl
    · exact h r h1
    · exact hlInv_getD E.rows h i

/-- editorRowAppendString preserves the invariant for in-range row
positions. -/
theorem editorRowAppendString_hlInv (E : editorConfig) (i : Nat) (s : List Nat)
    (h : hlInv E.rows) (hi : i ≤ E.numrows) :
    hlInv ((editorRowAppendString E i s).rows) := by
  unfold editorRowAppendString
  apply editorUpdateRow_hlInv _ _ _ _ _ hi
  intro r hr
  rcases List.mem_or_eq_of_mem_set hr with h1 | rfl
  · exact h r h1
  · exact hlInv_getD E.rows h i

/-- C4: the rendered/highlight length invariant holds for every row after
any highlight recomputation (editorUpdateSyntax cascade with any fuel) and
after any modelled mutation of row raw content followed by its
editorUpdateRow (char deletion, string append, row insertion, row
deletion), given that it held before. -/
theorem render_hl_length_invariant (E : editorConfig) (syn : Option editorSyntax)
    (numrows fuel i j : Nat) (a : Int) (s : List Nat)
    (hE : hlInv E.rows) (hi : i ≤ numrows) (hj : j ≤ E.numrows) :
    hlInv (editorUpdateSyntaxFuel syn numrows fuel E.rows i) ∧
    hlInv (editorUpdateRow syn numrows E.rows i) ∧
    hlInv ((editorInsertRow E a s).rows) ∧
    hlInv ((editorDelRow E a).rows) ∧
    hlInv ((editorRowDelChar E j a).rows) ∧
    hlInv ((editorRowAppendString E j s).rows) :=
  ⟨editorUpdateSyntaxFuel_hlInv syn numrows fuel E.rows i hE,
   editorUpdateRow_hlInv syn numrows E.rows i hE hi,
   editorInsertRow_hlInv E a s hE,
   editorDelRow_hlInv E a hE,
   editorRowDelChar_hlInv E j a hE hj,
   editorRowAppendString_hlInv E j s hE hj⟩

set_option maxHeartbeats 1000000 in
/-- C4 witness: concrete instance on a one-row C-profile document. -/
theorem render_hl_length_invariant_witness :
    hlInv (editorUpdateSyntaxFuel (some C_profile) 1 1
      (editorInsertRow { initialEditor with syn := some C_profile } 0 [97]).rows 0) ∧
    hlInv (editorUpdateRow (some C_profile) 1
      (editorInsertRow { initialEditor with syn := some C_profile } 0 [97]).rows 0) ∧
    hlInv ((editorInsertRow (editorInsertRow
      { initialEditor with syn := some C_profile } 0 [97]) 1 [98]).rows) ∧
    hlInv ((editorDelRow (editorInsertRow
      { initialEditor with syn := some C_profile } 0 [97]) 1).rows) ∧
    hlInv ((editorRowDelChar (editorInsertRow
      { initialEditor with syn := some C_profile } 0 [97]) 0 1).rows) ∧
    hlInv ((editorRowAppendString (editorInsertRow
      { initialEditor with syn := some C_profile } 0 [97]) 0 [98]).rows) :=
  render_hl_length_invariant
    (editorInsertRow { initialEditor with syn := some C_profile } 0 [97])
    (some C_profile) 1 1 0 0 1 [98]
    (by decide) (by decide) (by decide)

/-- Setting an element at or past position i does not change the first i
elements. -/
theorem take_set_of_le_idx {α : Type} :
    ∀ (l : List α) (i j : Nat) (r : α), j ≤ i →
      (l.set i r).take j = l.take j := by
  intro l
  induction l with
  | nil => intro i j r _; rfl
  | cons x xs ih =>
    intro i j r hj
    cases j with
    | zero => rfl
    | succ k =>
      cases i with
      | zero => omega
      | succ m =>
        simp only [List.set, List.take_succ_cons]
        rw [ih m k r (by omega)]

/-- The cascade never changes the number of rows. -/
theorem editorUpdateSyntaxFuel_length (syn : Option editorSyntax) (numrows : Nat) :
    ∀ fuel rows i,
      (editorUpdateSyntaxFuel syn numrows fuel rows i).length = rows.length := by
  intro fuel
  induction fuel with
  | zero => intro rows i; rfl
  | succ fuel ih =>
    intro rows i
    cases syn with
    | none => simp [editorUpdateSyntaxFuel]
    | some s =>
      simp only [editorUpdateSyntaxFuel]
      split
      · rw [ih]
        simp [List.length_set]
      · simp [List.length_set]

/-- The cascade touches only the row it starts at and its successors: every
strict prefix of the row list is preserved. -/
theorem editorUpdateSyntaxFuel_take (syn : Option editorSyntax) (numrows : Nat) :
    ∀ fuel rows i j, j ≤ i →
      (editorUpdateSyntaxFuel syn numrows fuel rows i).take j = rows.take j := by
  intro fuel
  induction fuel with
  | zero => intro rows i j hj; rfl
  | succ fuel ih =>
    intro rows i j hj
    cases syn with
    | none =>
      simp only [editorUpdateSyntaxFuel]
      exact take_set_of_le_idx _ i j _ hj
    | some s =>
      simp only [editorUpdateSyntaxFuel]
      split
      · rw [ih _ (i + 1) j (by omega)]
        exact take_set_of_le_idx _ i j _ hj
      · exact take_set_of_le_idx _ i j _ hj

/-- Fuel-stability of the cascade: any fuel of at least numrows - i steps
(one per remaining row position) produces the same result; the recursion
depth is bounded by the number of rows at or below the edited row. -/
theorem editorUpdateSyntaxFuel_stable (syn : Option editorSyntax) (numrows : Nat) :
    ∀ f1 f2 rows i, i < numrows → numrows - i ≤ f1 → numrows - i ≤ f2 →
      editorUpdateSyntaxFuel syn numrows f1 rows i
        = editorUpdateSyntaxFuel syn numrows f2 rows i := by
  intro f1
  induction f1 with
  | zero => intro f2 rows i hi h1 h2; omega
  | succ f1 ih =>
    intro f2 rows i hi h1 h2
    obtain ⟨f2, rfl⟩ : ∃ g, f2 = g + 1 := ⟨f2 - 1, by omega⟩
    cases syn with
    | none => rfl
    | some s =>
      simp only [editorUpdateSyntaxFuel]
      split
      · next hcond =>
        exact ih f2 _ (i + 1) hcond.2 (by omega) (by omega)
      · rfl

/-- C9: the cross-row re-highlight cascade triggered at row i terminates for
every document and is bounded by the rows at or below the edited row: any
fuel of at least numrows - i steps yields the same final document as
editorUpdateSyntax itself, only row i and its successors are ever
re-highlighted (all earlier rows are preserved verbatim), and the row count
is unchanged. -/
theorem cascade_bounded_terminates (syn : Option editorSyntax) (numrows : Nat)
    (rows : List erow) (i fuel : Nat) (hi : i < numrows)
    (hfuel : numrows - i ≤ fuel) :
    editorUpdateSyntaxFuel syn numrows fuel rows i
      = editorUpdateSyntax syn numrows rows i ∧
    (editorUpdateSyntax syn numrows rows i).take i = rows.take i ∧
    (editorUpdateSyntax syn numrows rows i).length = rows.length := by
  refine ⟨?_, ?_, ?_⟩
  · unfold editorUpdateSyntax
    exact editorUpdateSyntaxFuel_stable syn numrows fuel (numrows + 1 - i) rows i
      hi hfuel (by omega)
  · unfold editorUpdateSyntax
    exact editorUpdateSyntaxFuel_take syn numrows _ rows i i (Nat.le_refl i)
  · unfold editorUpdateSyntax
    exact editorUpdateSyntaxFuel_length syn numrows _ rows i

/-- C9 witness: concrete instance on a one-row C-profile document with
surplus fuel. -/
theorem cascade_bounded_terminates_witness :
    editorUpdateSyntaxFuel (some C_profile) 1 5
        ([⟨0, [97], [97], [HL_NORMAL], false⟩] : List erow) 0
      = editorUpdateSyntax (some C_profile) 1
        ([⟨0, [97], [97], [HL_NORMAL], false⟩] : List erow) 0 ∧
    (editorUpdateSyntax (some C_profile) 1
        ([⟨0, [97], [97], [HL_NORMAL], false⟩] : List erow) 0).take 0
      = ([⟨0, [97], [97], [HL_NORMAL], false⟩] : List erow).take 0 ∧
    (editorUpdateSyntax (some C_profile) 1
        ([⟨0, [97], [97], [HL_NORMAL], false⟩] : List erow) 0).length
      = ([⟨0, [97], [97], [HL_NORMAL], false⟩] : List erow).length :=
  cascade_bounded_terminates (some C_profile) 1
    ([⟨0, [97], [97], [HL_NORMAL], false⟩] : List erow) 0 5
    (by decide) (by decide)

/-- charsOf has the same length as the row list. -/
theorem charsOf_length (l : List erow) : (charsOf l).length = l.length := by
  simp [charsOf]

/-- charsOf distributes over append. -/
theorem charsOf_append (l1 l2 : List erow) :
    charsOf (l1 ++ l2) = charsOf l1 ++ charsOf l2 := by
  simp [charsOf]

/-- charsOf on a cons. -/
theorem charsOf_cons (r : erow) (l : List erow) :
    charsOf (r :: l) = r.chars :: charsOf l := rfl

/-- charsOf commutes with take. -/
theorem charsOf_take (l : List erow) (n : Nat) :
    charsOf (l.take n) = (charsOf l).take n := by
  simp [charsOf, List.map_take]

/-- charsOf commutes with drop. -/
theorem charsOf_drop (l : List erow) (n : Nat) :
    charsOf (l.drop n) = (charsOf l).drop n := by
  simp [charsOf, List.map_drop]

/-- charsOf commutes with set. -/
theorem charsOf_set (l : List erow) (i : Nat) (r : erow) :
    charsOf (l.set i r) = (charsOf l).set i r.chars := by
  simp [charsOf, List.map_set]

/-- charsOf commutes with getD. -/
theorem charsOf_getD (l : List erow) : ∀ i : Nat,
    (charsOf l).getD i [] = (l.getD i default).chars := by
  induction l with
  | nil => intro i; cases i <;> rfl
  | cons x xs ih =>
    intro i
    cases i with
    | zero => rfl
    | succ j => simpa [charsOf] using ih j

/-- Mapping a chars-preserving function over the rows leaves charsOf
unchanged. -/
theorem charsOf_map_preserving (g : erow → erow)
    (h : ∀ r, (g r).chars = r.chars) :
    ∀ l : List erow, charsOf (l.map g) = charsOf l := by
  intro l
  induction l with
  | nil => rfl
  | cons x xs ih =>
    simp only [List.map_cons, charsOf, List.map] at ih ⊢
    rw [h x, ih]

/-- Bumping row indices preserves charsOf. -/
theorem charsOf_map_idx_add (l : List erow) :
    charsOf (l.map (fun r => { r with idx := r.idx + 1 })) = charsOf l :=
  charsOf_map_preserving (fun r => { r with idx := r.idx + 1 }) (fun _ => rfl) l

/-- Decrementing row indices preserves charsOf. -/
theorem charsOf_map_idx_sub (l : List erow) :
    charsOf (l.map (fun r => { r with idx := r.idx - 1 })) = charsOf l :=
  charsOf_map_preserving (fun r => { r with idx := r.idx - 1 }) (fun _ => rfl) l

/-- Replacing a row by one with the same chars leaves charsOf unchanged. -/
theorem charsOf_set_same (l : List erow) : ∀ (i : Nat) (r : erow),
    r.chars = (l.getD i default).chars →
    charsOf (l.set i r) = charsOf l := by
  induction l with
  | nil => intro i r _; rfl
  | cons x xs ih =>
    intro i r h
    cases i with
    | zero =>
      rw [List.getD_cons_zero] at h
      simp [charsOf, List.set, h]
    | succ j =>
      rw [List.getD_cons_succ] at h
      simp only [List.set, charsOf, List.map]
      rw [show List.map (fun r => r.chars) (xs.set j r) = charsOf (xs.set j r) from rfl,
        ih j r h]
      rfl

/-- The highlight cascade never changes any row's raw bytes. -/
theorem editorUpdateSyntaxFuel_charsOf (syn : Option editorSyntax) (numrows : Nat) :
    ∀ fuel rows i,
      charsOf (editorUpdateSyntaxFuel syn numrows fuel rows i) = charsOf rows := by
  intro fuel
  induction fuel with
  | zero => intro rows i; rfl
  | succ fuel ih =>
    intro rows i
    cases syn with
    | none =>
      simp only [editorUpdateSyntaxFuel]
      exact charsOf_set_same _ i _ rfl
    | some s =>
      simp only [editorUpdateSyntaxFuel]
      split
      · rw [ih]
        exact charsOf_set_same _ i _ rfl
      · exact charsOf_set_same _ i _ rfl

/-- editorUpdateRow never changes any row's raw bytes. -/
theorem editorUpdateRow_charsOf (syn : Option editorSyntax) (numrows : Nat)
    (rows : List erow) (i : Nat) :
    charsOf (editorUpdateRow syn numrows rows i) = charsOf rows := by
  unfold editorUpdateRow editorUpdateSyntax
  rw [editorUpdateSyntaxFuel_charsOf]
  exact charsOf_set_same _ i _ rfl

/-- take up to an exact append boundary. -/
theorem take_len_append {α : Type} : ∀ (P S : List α) (x : α),
    (P ++ x :: S).take P.length = P := by
  intro P
  induction P with
  | nil => intro S x; rfl
  | cons p P ih =>
    intro S x
    simp only [List.cons_append, List.length_cons, List.take_succ_cons]
    rw [ih]

/-- take one past an exact append boundary. -/
theorem take_len_succ_append {α : Type} : ∀ (P S : List α) (x : α),
    (P ++ x :: S).take (P.length + 1) = P ++ [x] := by
  intro P
  induction P with
  | nil => intro S x; rfl
  | cons p P ih =>
    intro S x
    simp only [List.cons_append, List.length_cons, List.take_succ_cons]
    rw [ih]

/-- drop one past an exact append boundary. -/
theorem drop_len_succ_append {α : Type} : ∀ (P S : List α) (x : α),
    (P ++ x :: S).drop (P.length + 1) = S := by
  intro P
  induction P with
  | nil => intro S x; rfl
  | cons p P ih =>
    intro S x
    simp only [List.cons_append, List.length_cons, List.drop_succ_cons]
    rw [ih]

/-- set at an exact append boundary. -/
theorem set_len_append {α : Type} : ∀ (P S : List α) (x r : α),
    (P ++ x :: S).set P.length r = P ++ r :: S := by
  intro P
  induction P with
  | nil => intro S x r; rfl
  | cons p P ih =>
    intro S x r
    simp only [List.cons_append, List.length_cons, List.set_cons_succ]
    rw [ih]

/-- getD at an exact append boundary. -/
theorem getD_len_append {α : Type} : ∀ (P S : List α) (x d : α),
    (P ++ x :: S).getD P.length d = x := by
  intro P
  induction P with
  | nil => intro S x d; rfl
  | cons p P ih =>
    intro S x d
    simp only [List.cons_append, List.length_cons, List.getD_cons_succ]
    rw [ih]

/-- getD one past an exact append boundary. -/
theorem getD_len_succ_append {α : Type} : ∀ (P S : List α) (x y d : α),
    (P ++ x :: y :: S).getD (P.length + 1) d = y := by
  intro P
  induction P with
  | nil => intro S x y d; rfl
  | cons p P ih =>
    intro S x y d
    simp only [List.cons_append, List.length_cons, List.getD_cons_succ]
    rw [ih]

/-- Any list splits at an in-range index into prefix, element and suffix. -/
theorem eq_take_cons_drop {α : Type} : ∀ (l : List α) (i : Nat) (d : α),
    i < l.length → l = l.take i ++ l.getD i d :: l.drop (i + 1) := by
  intro l
  induction l with
  | nil => intro i d h; simp at h
  | cons x xs ih =>
    intro i d h
    cases i with
    | zero => simp
    | succ j =>
      simp only [List.take_succ_cons, List.drop_succ_cons, List.getD_cons_succ,
        List.cons_append]
      rw [← ih j d (by simpa using h)]

/-- getD within the left part of an append. -/
theorem getD_append_left_of_lt {α : Type} : ∀ (l1 l2 : List α) (i : Nat) (d : α),
    i < l1.length → (l1 ++ l2).getD i d = l1.getD i d := by
  intro l1
  induction l1 with
  | nil => intro l2 i d h; simp at h
  | cons x xs ih =>
    intro l2 i d h
    cases i with
    | zero => rfl
    | succ j => simpa using ih l2 j d (by simpa using h)

/-- getD within the taken part of a take. -/
theorem getD_take_of_lt {α : Type} : ∀ (l : List α) (n i : Nat) (d : α),
    i < n → (l.take n).getD i d = l.getD i d := by
  intro l
  induction l with
  | nil => intro n i d _; simp
  | cons x xs ih =>
    intro n i d h
    cases n with
    | zero => omega
    | succ m =>
      cases i with
      | zero => rfl
      | succ j => simpa using ih m j d (by omega)

/-- editorInsertRow characterized on charsOf: an in-range insertion splices
the new row's bytes at the insertion point, increments numrows and leaves
cursor and profile alone. -/
theorem editorInsertRow_spec (E : editorConfig) (a : Int) (s : List Nat)
    (h : ¬(a < 0 ∨ a > (E.numrows : Int))) :
    charsOf (editorInsertRow E a s).rows
      = (charsOf E.rows).take a.toNat ++ s :: (charsOf E.rows).drop a.toNat ∧
    (editorInsertRow E a s).numrows = E.numrows + 1 ∧
    (editorInsertRow E a s).cx = E.cx ∧
    (editorInsertRow E a s).cy = E.cy ∧
    (editorInsertRow E a s).syn = E.syn := by
  simp only [editorInsertRow, if_neg h]
  refine ⟨?_, by trivial, by trivial, by trivial, by trivial⟩
  rw [editorUpdateRow_charsOf, charsOf_append, charsOf_take, charsOf_cons,
    charsOf_map_idx_add, charsOf_drop]

/-- editorRowAppendString characterized on charsOf: the row at position i
gets s appended to its bytes; nothing else changes. -/
theorem editorRowAppendString_spec (E : editorConfig) (i : Nat) (s : List Nat) :
    charsOf (editorRowAppendString E i s).rows
      = (charsOf E.rows).set i ((charsOf E.rows).getD i [] ++ s) ∧
    (editorRowAppendString E i s).numrows = E.numrows ∧
    (editorRowAppendString E i s).cx = E.cx ∧
    (editorRowAppendString E i s).cy = E.cy := by
  simp only [editorRowAppendString]
  refine ⟨?_, by trivial, by trivial, by trivial⟩
  rw [editorUpdateRow_charsOf, charsOf_set, charsOf_getD]

/-- editorDelRow characterized on charsOf: an in-range deletion removes the
row's bytes; numrows decreases, cursor is untouched. -/
theorem editorDelRow_spec (E : editorConfig) (a : Int)
    (h : ¬(a < 0 ∨ a ≥ (E.numrows : Int))) :
    charsOf (editorDelRow E a).rows
      = (charsOf E.rows).take a.toNat ++ (charsOf E.rows).drop (a.toNat + 1) ∧
    (editorDelRow E a).numrows = E.numrows - 1 ∧
    (editorDelRow E a).cx = E.cx ∧
    (editorDelRow E a).cy = E.cy := by
  simp only [editorDelRow, if_neg h]
  refine ⟨?_, by trivial, by trivial, by trivial⟩
  rw [charsOf_append, charsOf_take, charsOf_map_idx_sub, charsOf_drop]

/-- editorInsertNewline characterized on charsOf, split branch (cx > 0): a
new row holding the bytes from cx on is inserted after row cy, and row cy is
truncated to its first cx bytes; the cursor moves to column 0 of the new
row. -/
theorem editorInsertNewline_spec (E : editorConfig)
    (hcx : ¬ E.cx = 0) (hcy : E.cy < E.numrows) (hlen : E.cy < E.rows.length) :
    charsOf (editorInsertNewline E).rows
      = ((charsOf E.rows).take (E.cy + 1)
          ++ ((charsOf E.rows).getD E.cy []).drop E.cx
            :: (charsOf E.rows).drop (E.cy + 1)).set E.cy
          (((charsOf E.rows).getD E.cy []).take E.cx) ∧
    (editorInsertNewline E).numrows = E.numrows + 1 ∧
    (editorInsertNewline E).cy = E.cy + 1 ∧
    (editorInsertNewline E).cx = 0 := by
  have hguard : ¬(((E.cy : Int) + 1) < 0 ∨ ((E.cy : Int) + 1) > (E.numrows : Int)) := by
    omega
  have ha : ((E.cy : Int) + 1).toNat = E.cy + 1 := by omega
  obtain ⟨h1, h2, h3, h4, h5⟩ :=
    editorInsertRow_spec E ((E.cy : Int) + 1)
      ((E.rows.getD E.cy default).chars.drop E.cx) hguard
  rw [ha] at h1
  simp only [editorInsertNewline, if_neg hcx]
  refine ⟨?_, by trivial, by trivial, by trivial⟩
  rw [editorUpdateRow_charsOf, charsOf_set]
  dsimp only
  have hrow1 : ((editorInsertRow E ((E.cy : Int) + 1)
        ((E.rows.getD E.cy default).chars.drop E.cx)).rows.getD E.cy default).chars
      = (charsOf E.rows).getD E.cy [] := by
    rw [← charsOf_getD, h1]
    rw [getD_append_left_of_lt _ _ _ _
      (by rw [List.length_take, charsOf_length]; omega)]
    exact getD_take_of_lt _ _ _ _ (by omega)
  rw [hrow1, h1]
  simp only [charsOf_getD]

/-- editorDelChar characterized on charsOf, join branch (cx = 0, cy > 0):
row cy's bytes are appended to row cy-1 and row cy is removed; numrows
decreases and the cursor moves up to the join row. -/
theorem editorDelChar_spec (E : editorConfig)
    (hcy : E.cy < E.numrows) (hcx : E.cx = 0) (hcy0 : E.cy ≠ 0) :
    charsOf (editorDelChar E).rows
      = ((charsOf E.rows).set (E.cy - 1)
            ((charsOf E.rows).getD (E.cy - 1) []
              ++ (charsOf E.rows).getD E.cy [])).take E.cy
        ++ ((charsOf E.rows).set (E.cy - 1)
            ((charsOf E.rows).getD (E.cy - 1) []
              ++ (charsOf E.rows).getD E.cy [])).drop (E.cy + 1) ∧
    (editorDelChar E).numrows = E.numrows - 1 ∧
    (editorDelChar E).cy = E.cy - 1 := by
  obtain ⟨a1, a2, a3, a4⟩ :=
    editorRowAppendString_spec E (E.cy - 1) (E.rows.getD E.cy default).chars
  have hguard : ¬((E.cy : Int) < 0
      ∨ (E.cy : Int) ≥ ((editorRowAppendString E (E.cy - 1)
          (E.rows.getD E.cy default).chars).numrows : Int)) := by
    rw [a2]
    omega
  obtain ⟨d1, d2, d3, d4⟩ :=
    editorDelRow_spec (editorRowAppendString E (E.cy - 1)
      (E.rows.getD E.cy default).chars) (E.cy : Int) hguard
  have htn : ((E.cy : Int)).toNat = E.cy := by omega
  rw [htn] at d1
  rw [a1] at d1
  simp only [editorDelChar, if_neg (show ¬ E.cy = E.numrows by omega),
    if_neg (show ¬ (E.cx = 0 ∧ E.cy = 0) from fun hh => hcy0 hh.2),
    if_neg (show ¬ 0 < E.cx by omega)]
  refine ⟨?_, by rw [d2, a2], by trivial⟩
  rw [d1]
  simp only [charsOf_getD]

/-- take of one more element, expressed with getD. -/
theorem take_succ_getD {α : Type} : ∀ (l : List α) (i : Nat) (d : α),
    i < l.length → l.take (i + 1) = l.take i ++ [l.getD i d] := by
  intro l
  induction l with
  | nil => intro i d h; simp at h
  | cons x xs ih =>
    intro i d h
    cases i with
    | zero => rfl
    | succ j =>
      simp only [List.take_succ_cons, List.getD_cons_succ, List.cons_append]
      rw [ih j d (by simpa using h)]

/-- set at an append boundary, index given by an equation. -/
theorem set_eq_append {α : Type} (P S : List α) (x r : α) (i : Nat)
    (h : i = P.length) : (P ++ x :: S).set i r = P ++ r :: S := by
  subst h
  exact set_len_append P S x r

/-- getD at an append boundary, index given by an equation. -/
theorem getD_eq_append {α : Type} (P S : List α) (x d : α) (i : Nat)
    (h : i = P.length) : (P ++ x :: S).getD i d = x := by
  subst h
  exact getD_len_append P S x d

/-- getD one past an append boundary, index given by an equation. -/
theorem getD_succ_eq_append {α : Type} (P S : List α) (x y d : α) (i : Nat)
    (h : i = P.length) : (P ++ x :: y :: S).getD (i + 1) d = y := by
  subst h
  exact getD_len_succ_append P S x y d

/-- take one past an append boundary, index given by an equation. -/
theorem take_succ_eq_append {α : Type} (P S : List α) (x : α) (i : Nat)
    (h : i = P.length) : (P ++ x :: S).take (i + 1) = P ++ [x] := by
  subst h
  exact take_len_succ_append P S x

/-- drop two past an append boundary, index given by an equation. -/
theorem drop_two_eq_append {α : Type} (P S : List α) (x y : α) (i : Nat)
    (h : i = P.length) : (P ++ x :: y :: S).drop (i + 1 + 1) = S := by
  subst h
  have h1 : P ++ x :: y :: S = (P ++ [x]) ++ y :: S := by simp
  rw [h1]
  have h2 : P.length + 1 + 1 = (P ++ [x]).length + 1 := by simp
  rw [h2]
  exact drop_len_succ_append (P ++ [x]) S y

/-- C7: splitting a row via editorInsertNewline at column k = cx with
0 < k <= row.chars.length, then joining via editorDelChar at column 0 of the
resulting second row, reproduces every row's raw byte sequence exactly (in
particular the split row's), and restores the row count. -/
theorem split_join_roundtrip (E : editorConfig)
    (hnum : E.numrows = E.rows.length) (hcy : E.cy < E.numrows)
    (hk0 : 0 < E.cx)
    (hk : E.cx ≤ (E.rows.getD E.cy default).chars.length) :
    charsOf (editorDelChar (editorInsertNewline E)).rows = charsOf E.rows ∧
    (editorDelChar (editorInsertNewline E)).numrows = E.numrows := by
  obtain ⟨n1, n2, n3, n4⟩ := editorInsertNewline_spec E (by omega) hcy (by omega)
  obtain ⟨d1, d2, d3⟩ := editorDelChar_spec (editorInsertNewline E)
    (by rw [n2, n3]; omega) n4 (by rw [n3]; omega)
  refine ⟨?_, by rw [d2, n2]; omega⟩
  rw [n3, n1] at d1
  simp only [Nat.add_sub_cancel] at d1
  rw [d1]
  have hlenM : E.cy < (charsOf E.rows).length := by rw [charsOf_length]; omega
  have hP : E.cy = ((charsOf E.rows).take E.cy).length := by
    rw [List.length_take]
    omega
  have hsplit := eq_take_cons_drop (charsOf E.rows) E.cy [] hlenM
  have htake1 := take_succ_getD (charsOf E.rows) E.cy [] hlenM
  rw [htake1, List.append_assoc, List.singleton_append]
  rw [set_eq_append ((charsOf E.rows).take E.cy)
    (((charsOf E.rows).getD E.cy []).drop E.cx :: (charsOf E.rows).drop (E.cy + 1))
    ((charsOf E.rows).getD E.cy [])
    (((charsOf E.rows).getD E.cy []).take E.cx) E.cy hP]
  rw [getD_eq_append ((charsOf E.rows).take E.cy)
    (((charsOf E.rows).getD E.cy []).drop E.cx :: (charsOf E.rows).drop (E.cy + 1))
    (((charsOf E.rows).getD E.cy []).take E.cx) [] E.cy hP]
  rw [getD_succ_eq_append ((charsOf E.rows).take E.cy)
    ((charsOf E.rows).drop (E.cy + 1))
    (((charsOf E.rows).getD E.cy []).take E.cx)
    (((charsOf E.rows).getD E.cy []).drop E.cx) [] E.cy hP]
  rw [List.take_append_drop]
  rw [set_eq_append ((charsOf E.rows).take E.cy)
    (((charsOf E.rows).getD E.cy []).drop E.cx :: (charsOf E.rows).drop (E.cy + 1))
    (((charsOf E.rows).getD E.cy []).take E.cx)
    ((charsOf E.rows).getD E.cy []) E.cy hP]
  rw [take_succ_eq_append ((charsOf E.rows).take E.cy)
    (((charsOf E.rows).getD E.cy []).drop E.cx :: (charsOf E.rows).drop (E.cy + 1))
    ((charsOf E.rows).getD E.cy []) E.cy hP]
  rw [drop_two_eq_append ((charsOf E.rows).take E.cy)
    ((charsOf E.rows).drop (E.cy + 1))
    ((charsOf E.rows).getD E.cy [])
    (((charsOf E.rows).getD E.cy []).drop E.cx) E.cy hP]
  conv_rhs => rw [hsplit]
  simp

/-- C7 witness: splitting the single row "hi" at column 1 and joining again
restores the document. -/
theorem split_join_roundtrip_witness :
    charsOf (editorDelChar (editorInsertNewline
      { editorInsertRow initialEditor 0 [104, 105] with cx := 1 })).rows
      = charsOf { editorInsertRow initialEditor 0 [104, 105] with cx := 1 }.rows ∧
    (editorDelChar (editorInsertNewline
      { editorInsertRow initialEditor 0 [104, 105] with cx := 1 })).numrows
      = { editorInsertRow initialEditor 0 [104, 105] with cx := 1 }.numrows :=
  split_join_roundtrip { editorInsertRow initialEditor 0 [104, 105] with cx := 1 }
    (by decide) (by decide) (by decide) (by decide)
